import Mathlib

/-!
Shallow embedding of the EduSense-AI analysis pipeline (src/backend/orch.py).

Timestamps are modelled as rationals, Python ints as integers.  Python's
`round` (round half to even) is modelled by `pyRound`; `seconds` clamps to
non-negative integers exactly as `max(0, int(round(x)))` does.  Strings are
modelled as `String`/`List Char`; `str.replace`, `str.split()`, `str.strip()`
and `" ".join(...)` are modelled by executable list functions below.  The
external JSON parser (`json.loads`) is an abstract oracle
`String → Option PyObj`; the regex searches `\[.*\]` and `\{.*\}` (first
opening delimiter to last closing delimiter, DOTALL) are modelled exactly.
-/

namespace EduSense

/-! ### Numeric helpers (orch.py: `seconds`, Python `round`) -/

/-- Python `round` on an exact rational: round half to even. -/
def pyRound (q : ℚ) : ℤ :=
  if q - (q.floor : ℚ) < 1/2 then q.floor
  else if 1/2 < q - (q.floor : ℚ) then q.floor + 1
  else if 2 ∣ q.floor then q.floor else q.floor + 1

/-- orch.py `seconds(x) = max(0, int(round(x)))`. -/
def seconds (x : ℚ) : ℤ := max 0 (pyRound x)

/-- Python `round(x, 2)` on an exact rational. -/
def pyRound2 (x : ℚ) : ℚ := ((pyRound (x * 100) : ℤ) : ℚ) / 100

/-! ### Characters and whitespace (Python `str.split()` / `str.strip()`) -/

/-- ASCII whitespace recognised by Python's `str.split()`/`str.strip()`. -/
def pyIsSpace (c : Char) : Bool :=
  c = ' ' || c = '\t' || c = '\n' || c = '\r' || c = Char.ofNat 11 || c = Char.ofNat 12

/-- Python `str.strip()` on a character list. -/
def stripL (l : List Char) : List Char :=
  ((l.dropWhile pyIsSpace).reverse.dropWhile pyIsSpace).reverse

/-- Helper for `splitWS`: current piece and the later pieces. -/
def splitWS1 : List Char → List Char × List (List Char)
  | [] => ([], [])
  | c :: s =>
    let p := splitWS1 s
    if pyIsSpace c then ([], p.1 :: p.2) else (c :: p.1, p.2)

/-- Split at every whitespace character, keeping empty pieces
(Python `re`-style raw split; `str.split()` then drops the empties). -/
def splitWS (l : List Char) : List (List Char) :=
  (splitWS1 l).1 :: (splitWS1 l).2

/-- Python `" ".join(ws)`: a single space between adjacent pieces. -/
def unwordsL : List (List Char) → List Char
  | [] => []
  | [w] => w
  | w :: ws => w ++ ' ' :: unwordsL ws

/-- Python `" ".join(s.split())`: collapse all whitespace runs. -/
def normWSL (l : List Char) : List Char :=
  unwordsL ((splitWS l).filter (fun w => !w.isEmpty))

/-! ### Python `str.replace` (leftmost, non-overlapping) -/

/-- Boolean sequence-prefix test. -/
def isPre : List Char → List Char → Bool
  | [], _ => true
  | _ :: _, [] => false
  | a :: pat, b :: s => a = b && isPre pat s

/-- Fuel-driven body of `replaceL`; `fuel ≥ s.length` makes it total. -/
def replaceFuel (pat repl : List Char) : ℕ → List Char → List Char
  | _, [] => []
  | 0, s => s
  | fuel + 1, c :: rest =>
    if isPre pat (c :: rest) then
      repl ++ replaceFuel pat repl fuel (rest.drop (pat.length - 1))
    else
      c :: replaceFuel pat repl fuel rest

/-- Python `s.replace(pat, repl)` for a non-empty pattern
(leftmost-first, non-overlapping, continue after the replacement). -/
def replaceL (s pat repl : List Char) : List Char :=
  if pat.isEmpty then s else replaceFuel pat repl s.length s

/-- Does `pat` occur as a contiguous subsequence of `s`? -/
def hasSub (pat : List Char) : List Char → Bool
  | [] => isPre pat []
  | c :: t => isPre pat (c :: t) || hasSub pat t

/-! ### Transliteration tables (orch.py: `URDU_ROMAN_MAP`, `COMMON_REPL`) -/

/-- Association-list lookup (first match), as Python dict `.get`. -/
def lookupC (c : Char) : List (Char × String) → Option String
  | [] => none
  | p :: t => if p.1 = c then some p.2 else lookupC c t

/-- The character map of orch.py, keys given by codepoint. -/
def URDU_ROMAN_MAP : List (Char × String) :=
  [ (Char.ofNat 0x0627, "a"), (Char.ofNat 0x0622, "aa"), (Char.ofNat 0x0628, "b"),
    (Char.ofNat 0x067E, "p"), (Char.ofNat 0x062A, "t"), (Char.ofNat 0x0679, "t"),
    (Char.ofNat 0x062B, "s"), (Char.ofNat 0x062C, "j"), (Char.ofNat 0x0686, "ch"),
    (Char.ofNat 0x062D, "h"), (Char.ofNat 0x062E, "kh"), (Char.ofNat 0x062F, "d"),
    (Char.ofNat 0x0688, "d"), (Char.ofNat 0x0630, "z"), (Char.ofNat 0x0631, "r"),
    (Char.ofNat 0x0691, "r"), (Char.ofNat 0x0632, "z"), (Char.ofNat 0x0698, "zh"),
    (Char.ofNat 0x0633, "s"), (Char.ofNat 0x0634, "sh"), (Char.ofNat 0x0635, "s"),
    (Char.ofNat 0x0636, "z"), (Char.ofNat 0x0637, "t"), (Char.ofNat 0x0638, "z"),
    (Char.ofNat 0x0639, "’"), (Char.ofNat 0x063A, "gh"), (Char.ofNat 0x0641, "f"),
    (Char.ofNat 0x0642, "q"), (Char.ofNat 0x06A9, "k"), (Char.ofNat 0x06AF, "g"),
    (Char.ofNat 0x0644, "l"), (Char.ofNat 0x0645, "m"), (Char.ofNat 0x0646, "n"),
    (Char.ofNat 0x06BA, "n"), (Char.ofNat 0x0648, "w"), (Char.ofNat 0x06C1, "h"),
    (Char.ofNat 0x06BE, "h"), (Char.ofNat 0x0621, "’"), (Char.ofNat 0x06CC, "y"),
    (Char.ofNat 0x06D2, "e"), (Char.ofNat 0x064E, "a"), (Char.ofNat 0x0650, "i"),
    (Char.ofNat 0x064F, "u"), (Char.ofNat 0x064B, "an"), (Char.ofNat 0x064D, "in"),
    (Char.ofNat 0x064C, "un"), (Char.ofNat 0x0651, ""), (Char.ofNat 0x0652, "") ]

/-- A word of the `COMMON_REPL` table: space, codepoints, space. -/
def urduWord (cps : List ℕ) : List Char := ' ' :: cps.map Char.ofNat ++ [' ']

/-- The whole-word phrase replacements of orch.py, in table order. -/
def COMMON_REPL : List (List Char × List Char) :=
  [ (urduWord [0x0645, 0x06CC, 0x06BA], " mein ".data),
    (urduWord [0x0646, 0x06C1, 0x06CC, 0x06BA], " nahi ".data),
    (urduWord [0x06C1, 0x06D2], " hai ".data),
    (urduWord [0x06C1, 0x0648, 0x06BA], " hoon ".data),
    (urduWord [0x062A, 0x06BE, 0x06D2], " thay ".data),
    (urduWord [0x062A, 0x06BE, 0x0627], " tha ".data),
    (urduWord [0x062A, 0x06BE, 0x06CC], " thi ".data),
    (urduWord [0x06C1, 0x0648, 0x06AF, 0x0627], " hoga ".data),
    (urduWord [0x06C1, 0x0648, 0x06AF, 0x06CC], " hogi ".data),
    (urduWord [0x06A9, 0x06CC, 0x0648, 0x06BA], " kyun ".data),
    (urduWord [0x06A9, 0x06CC, 0x0627], " kya ".data),
    (urduWord [0x062A, 0x0645], " tum ".data),
    (urduWord [0x06C1, 0x0645], " hum ".data),
    (urduWord [0x06C1, 0x06CC, 0x06BA], " hain ".data) ]

/-! ### The transliteration transducer (orch.py: `urdu_to_roman`) -/

/-- One character of the character-mapping pass: mapped value, or itself. -/
def romanCharL (c : Char) : List Char :=
  match lookupC c URDU_ROMAN_MAP with
  | some v => v.data
  | none => [c]

/-- The phrase-replacement pass (first pass of the transducer). -/
def phrasePass (t : List Char) : List Char :=
  COMMON_REPL.foldl (fun acc p => replaceL acc p.1 p.2) t

/-- The character-mapping pass. -/
def charMapL (l : List Char) : List Char := (l.map romanCharL).flatten

/-- The final cleanup: `khh→kh`, `ghh→gh`, `shh→sh`, in that order. -/
def cleanup3 (l : List Char) : List Char :=
  replaceL (replaceL (replaceL l "khh".data "kh".data) "ghh".data "gh".data)
    "shh".data "sh".data

/-- List-level body of `urdu_to_roman`. -/
def u2rL (l : List Char) : List Char :=
  cleanup3 (normWSL (charMapL (phrasePass (' ' :: l ++ [' ']))))

/-- orch.py `urdu_to_roman`. -/
def urdu_to_roman (s : String) : String := String.mk (u2rL s.data)

/-! ### Data model: segments and windows -/

/-- One ASR segment (Python dict `{start, end, text}`); `stop` models `end`. -/
structure Seg where
  start : ℚ
  stop : ℚ
  text : String
deriving DecidableEq

/-- One window (Python dict `{start, end, text_urdu, text_roman}`, where the
classifier later adds `label`); `stop` models `end`. -/
structure Window where
  start : ℤ
  stop : ℤ
  text_urdu : String
  text_roman : String
  label : Option String
deriving DecidableEq

/-- Window materialisation: join the texts with spaces, strip, transliterate,
round the accumulated rational bounds. -/
def mkWindow (st en : ℚ) (texts : List String) : Window :=
  let tu := String.mk (stripL (unwordsL (texts.map String.data)))
  { start := seconds st, stop := seconds en,
    text_urdu := tu, text_roman := urdu_to_roman tu, label := none }

/-- The loop of `chunk_windows`: `st`/`en`/`texts` are the running window. -/
def chunkAux (wsec : ℚ) : ℚ → ℚ → List String → List Seg → List Window
  | st, en, texts, [] => if texts.isEmpty then [] else [mkWindow st en texts]
  | st, en, texts, seg :: rest =>
    if seg.stop - st ≤ wsec then
      chunkAux wsec st seg.stop (texts ++ [seg.text]) rest
    else
      mkWindow st en texts :: chunkAux wsec seg.start seg.stop [seg.text] rest

/-- orch.py `chunk_windows`: the current window is seeded from the first
segment with an empty text list, then every segment (the first included) is
offered to the running window; the final open window is flushed when its
text list is non-empty. -/
def chunk_windows (segments : List Seg) (window_sec : ℚ) : List Window :=
  match segments with
  | [] => []
  | s0 :: _ => chunkAux window_sec s0.start s0.stop [] segments

/-! ### Values produced by the external JSON parser -/

/-- A parsed Python/JSON value, as far as the pipeline inspects it. -/
inductive PyObj where
  | pstr (s : String)
  | plist (xs : List PyObj)
  | pdict (kvs : List (String × PyObj))
  | pother

/-- Python truthiness of a parsed value (`pother` stands for a truthy
scalar such as a non-zero number). -/
def pyTruthy : PyObj → Bool
  | .pstr s => !s.isEmpty
  | .plist xs => !xs.isEmpty
  | .pdict kvs => !kvs.isEmpty
  | .pother => true

/-- Python `dict.get` on the parsed key/value list. -/
def lookupKV (k : String) : List (String × PyObj) → Option PyObj
  | [] => none
  | p :: t => if p.1 = k then some p.2 else lookupKV k t

/-- Python `isinstance(v, list) and all(isinstance(x, str) for x in v)`,
returning the strings when it holds. -/
def asStrList : PyObj → Option (List String)
  | .plist xs =>
    let rec go : List PyObj → Option (List String)
      | [] => some []
      | .pstr s :: t => (go t).map (s :: ·)
      | _ => none
    go xs
  | _ => none

/-- Python `str(v)` for a parsed value; renderings of non-string values are
abstracted by the `render` parameter (`str` of a string is itself). -/
def pyStrFull (render : PyObj → String) : PyObj → String
  | .pstr s => s
  | v => render v

/-! ### Regex extraction (`re.search(r"\[.*\]", t, re.S)` and braces) -/

/-- Index of the first occurrence of `c`. -/
def firstIdx (c : Char) : List Char → Option ℕ
  | [] => none
  | a :: t => if a = c then some 0 else (firstIdx c t).map (· + 1)

/-- Index of the last occurrence of `c`. -/
def lastIdx (c : Char) (l : List Char) : Option ℕ :=
  (firstIdx c l.reverse).map (fun i => l.length - 1 - i)

/-- Greedy DOTALL match of `op.*cl`: from the first opening delimiter to the
last closing delimiter, provided the latter comes strictly later. -/
def extractDelim (op cl : Char) (s : List Char) : Option (List Char) :=
  match firstIdx op s, lastIdx cl s with
  | some i, some j => if i < j then some ((s.drop i).take (j - i + 1)) else none
  | _, _ => none

/-- The `re.search(r"\[.*\]", text, re.S)` match of orch.py. -/
def extractBracket (s : String) : Option String :=
  (extractDelim '[' ']' s.data).map String.mk

/-- The brace analogue used by the topic/summary stage. -/
def extractBrace (s : String) : Option String :=
  (extractDelim (Char.ofNat 123) (Char.ofNat 125) s.data).map String.mk

/-! ### Batch classifier (orch.py: `classify_batch_with_gemini`, `node_classify`) -/

/-- orch.py `classify_batch_with_gemini`, abstracted over the JSON parser
`loads` (`none` models a parse exception) and the raw response `text`;
`n` is the number of windows in the batch.  Mirrors the code: direct parse,
else bracket-substring parse, else (or when the value is not a list of
strings) the all-`LECTURE` fallback. -/
def classify_batch_with_gemini (loads : String → Option PyObj) (text : String)
    (n : ℕ) : List String :=
  match loads text with
  | some v =>
    match asStrList v with
    | some xs => xs
    | none => List.replicate n "LECTURE"
  | none =>
    match extractBracket text with
    | none => List.replicate n "LECTURE"
    | some sub =>
      match loads sub with
      | some v =>
        match asStrList v with
        | some xs => xs
        | none => List.replicate n "LECTURE"
      | none => List.replicate n "LECTURE"

/-- Python `lbl.strip().upper()` (ASCII case mapping). -/
def stripUpper (s : String) : String :=
  String.mk ((stripL s.data).map Char.toUpper)

/-- Attach a label to a window, as `node_classify` does. -/
def setLabel (w : Window) (lbl : String) : Window :=
  { w with label := some (stripUpper lbl) }

/-- The batching loop of `node_classify`: batches of 8, one service response
text per batch index `k`; `zip` drops windows when fewer labels return.
`fuel ≥ ws.length` makes the recursion total. -/
def classifyGo (loads : String → Option PyObj) (resp : ℕ → String) :
    ℕ → ℕ → List Window → List Window
  | _, _, [] => []
  | 0, _, _ :: _ => []
  | fuel + 1, k, w :: rest =>
    let batch := w :: rest.take 7
    let labels := classify_batch_with_gemini loads (resp k) batch.length
    List.zipWith setLabel batch labels ++ classifyGo loads resp fuel (k + 1) (rest.drop 7)

/-- orch.py `node_classify` on the window list, abstracted over the JSON
parser and the per-batch service response texts. -/
def node_classify (loads : String → Option PyObj) (resp : ℕ → String)
    (ws : List Window) : List Window :=
  classifyGo loads resp ws.length 0 ws

/-! ### Metrics (orch.py: `node_metrics`) -/

/-- Python `max(0, int(w["end"] - w["start"]))`. -/
def winDur (w : Window) : ℤ := max 0 (w.stop - w.start)

/-- Python `w.get("label") or "LECTURE"`: a missing or empty (falsy) label
defaults to `LECTURE`. -/
def rawLabel (w : Window) : String :=
  match w.label with
  | none => "LECTURE"
  | some s => if s = "" then "LECTURE" else s

/-- The raw label upper-cased (ASCII), as `.upper()` in `node_metrics`. -/
def upperLabel (w : Window) : String :=
  String.mk ((rawLabel w).data.map Char.toUpper)

/-- The effective label used by `node_metrics`: upper-cased, and out-of-set
values fall back to `LECTURE`. -/
def metricsLabel (w : Window) : String :=
  if upperLabel w = "LECTURE" || upperLabel w = "QNA" ||
      upperLabel w = "INTERACTIVE" || upperLabel w = "OFF_TOPIC" then
    upperLabel w
  else "LECTURE"

/-- The per-label running totals (`totals` dict of orch.py). -/
structure Totals where
  lecture : ℤ
  qna : ℤ
  interactive : ℤ
  off_topic : ℤ
deriving DecidableEq

/-- One loop iteration of `node_metrics`: add the window duration to the
total of its (coerced) label. -/
def addTot (t : Totals) (w : Window) : Totals :=
  let dur := winDur w
  match metricsLabel w with
  | "QNA" => { t with qna := t.qna + dur }
  | "INTERACTIVE" => { t with interactive := t.interactive + dur }
  | "OFF_TOPIC" => { t with off_topic := t.off_topic + dur }
  | _ => { t with lecture := t.lecture + dur }

/-- The metrics and score record produced by `node_metrics`. -/
structure MetricsOut where
  duration_sec : ℤ
  teaching_sec : ℤ
  qna_sec : ℤ
  interactive_sec : ℤ
  time_wasted_sec : ℤ
  interactivity_score : ℚ
deriving DecidableEq

/-- The effective duration of `node_metrics`:
`state.get("duration_sec") or sum(max(0, int(w["end"] - w["start"])) ...)` —
an absent or zero (falsy) supplied duration falls back to the window sum. -/
def effDuration (ws : List Window) (supplied : Option ℤ) : ℤ :=
  match supplied with
  | some d => if d = 0 then ws.foldl (fun a w => a + winDur w) 0 else d
  | none => ws.foldl (fun a w => a + winDur w) 0

/-- orch.py `node_metrics`: label totals, effective duration, and
`round(100.0 * ratio, 2)` with the `duration_sec > 0` guard. -/
def node_metrics (ws : List Window) (supplied : Option ℤ) : MetricsOut :=
  let t := ws.foldl addTot ⟨0, 0, 0, 0⟩
  let duration_sec : ℤ := effDuration ws supplied
  let ratio : ℚ :=
    if 0 < duration_sec then ((t.qna + t.interactive : ℤ) : ℚ) / (duration_sec : ℚ)
    else 0
  { duration_sec := duration_sec,
    teaching_sec := t.lecture,
    qna_sec := t.qna,
    interactive_sec := t.interactive,
    time_wasted_sec := t.off_topic,
    interactivity_score := pyRound2 (100 * ratio) }

/-! ### Topic and summary stage (orch.py: `node_topics_and_summary`) -/

/-- The topic/summary result record. -/
structure TopicsOut where
  topics : List String
  topic_explanations : String × String
  summary : String × String
deriving DecidableEq

/-- Python `data.get(k) or {}` then `.get(field, "")`: absent or falsy gives
the empty dict; a truthy non-dict raises (`.get` on a non-dict). -/
def asDictOr (v : Option PyObj) : Except Unit (List (String × PyObj)) :=
  match v with
  | none => .ok []
  | some v =>
    if pyTruthy v then
      match v with
      | .pdict m => .ok m
      | _ => .error ()
    else .ok []

/-- Python `str(m.get(k, ""))[:2000]`. -/
def getField2000 (render : PyObj → String) (m : List (String × PyObj))
    (k : String) : String :=
  (((lookupKV k m).map (pyStrFull render)).getD "").take 2000

/-- orch.py `node_topics_and_summary`, abstracted over the credential flag,
the JSON parser and the raw response text.  The second `json.loads` (on the
brace-extracted substring) is outside any `try`, so its failure is an
uncaught exception, modelled as `.error ()`. -/
def node_topics_and_summary (hasKey : Bool) (loads : String → Option PyObj)
    (render : PyObj → String) (respText : String) : Except Unit TopicsOut :=
  if !hasKey then .ok ⟨[], ("", ""), ("", "")⟩
  else
    let t := String.mk (stripL respText.data)
    let dataRes : Except Unit PyObj :=
      match loads t with
      | some d => .ok d
      | none =>
        match extractBrace t with
        | some sub =>
          match loads sub with
          | some d => .ok d
          | none => .error ()
        | none => .ok (.pdict [])
    match dataRes with
    | .error e => .error e
    | .ok data =>
      match data with
      | .pdict kvs =>
        let topics : List String :=
          match lookupKV "topics" kvs with
          | some (.plist xs) => (xs.take 8).map (fun x => (pyStrFull render x).take 80)
          | _ => []
        match asDictOr (lookupKV "topic_explanations" kvs) with
        | .error e => .error e
        | .ok te =>
          match asDictOr (lookupKV "summary" kvs) with
          | .error e => .error e
          | .ok sm =>
            .ok ⟨topics,
                 (getField2000 render te "english", getField2000 render te "roman"),
                 (getField2000 render sm "english", getField2000 render sm "roman")⟩
      | _ => .ok ⟨[], ("", ""), ("", "")⟩

/-! ### Pipeline entry point (orch.py: `run_analysis`) -/

/-- orch.py `run_analysis`, abstracted over the filesystem existence check
and the whole downstream pipeline (graph invocation): a missing path raises
`FileNotFoundError(audio_abs_path)` before the pipeline runs. -/
def run_analysis {α : Type} (pathExists : String → Bool)
    (pipeline : String → α) (audio_abs_path : String) : Except String α :=
  if pathExists audio_abs_path then .ok (pipeline audio_abs_path)
  else .error audio_abs_path

/-! ### Properties of the claims: formal renderings used below -/

/-- Pairwise time-disjointness of window ranges. -/
def windowsDisjoint (ws : List Window) : Prop :=
  ws.Pairwise (fun a b => a.stop ≤ b.start ∨ b.stop ≤ a.start)

/-- Some window's time range contains the instant `t`. -/
def coversPoint (ws : List Window) (t : ℤ) : Prop :=
  ∃ w ∈ ws, w.start ≤ t ∧ t < w.stop

/-- The end of the last segment, or the running window end when there is
no further segment (helper for the windower span lemma). -/
def lastStop (segs : List Seg) (en : ℚ) : ℚ :=
  match segs.getLast? with
  | some s => s.stop
  | none => en

/-! ### Rounding lemmas -/

theorem ratFloor_eqI (q : ℚ) : q.floor = ⌊q⌋ := by
  rw [Rat.floor_def', Rat.floor_def]

theorem floor_le_pyRound (q : ℚ) : ⌊q⌋ ≤ pyRound q := by
  unfold pyRound
  rw [ratFloor_eqI]
  split_ifs <;> omega

theorem pyRound_le_floor_add_one (q : ℚ) : pyRound q ≤ ⌊q⌋ + 1 := by
  unfold pyRound
  rw [ratFloor_eqI]
  split_ifs <;> omega

theorem pyRound_mono {a b : ℚ} (h : a ≤ b) : pyRound a ≤ pyRound b := by
  have hf : ⌊a⌋ ≤ ⌊b⌋ := Int.floor_mono h
  by_cases heq : ⌊a⌋ = ⌊b⌋
  · unfold pyRound
    rw [ratFloor_eqI, ratFloor_eqI, heq]
    have hr : a - (⌊b⌋ : ℚ) ≤ b - (⌊b⌋ : ℚ) := by linarith
    split_ifs with h1 h2 h3 h4 h5 <;> try omega
    all_goals (exfalso; linarith)
  · have hlt : ⌊a⌋ < ⌊b⌋ := lt_of_le_of_ne hf heq
    have h1 := pyRound_le_floor_add_one a
    have h2 := floor_le_pyRound b
    omega

theorem pyRound_intCast (n : ℤ) : pyRound (n : ℚ) = n := by
  unfold pyRound
  rw [ratFloor_eqI, Int.floor_intCast]
  have : (n : ℚ) - (n : ℚ) = 0 := by ring
  rw [this]
  norm_num

theorem seconds_nonneg (x : ℚ) : 0 ≤ seconds x := le_max_left 0 _

theorem seconds_mono {a b : ℚ} (h : a ≤ b) : seconds a ≤ seconds b :=
  max_le_max le_rfl (pyRound_mono h)

/-! ### Windower lemmas -/

theorem chunkAux_ne_nil (wsec : ℚ) :
    ∀ (segs : List Seg) (st en : ℚ) (texts : List String),
      texts ≠ [] ∨ segs ≠ [] → chunkAux wsec st en texts segs ≠ []
  | [], st, en, texts, h => by
    rcases h with h | h
    · simp [chunkAux, h]
    · exact absurd rfl h
  | seg :: rest, st, en, texts, _ => by
    rw [chunkAux]
    split
    · exact chunkAux_ne_nil wsec rest st seg.stop (texts ++ [seg.text])
        (Or.inl (by simp))
    · simp

theorem chunkAux_head_start (wsec : ℚ) :
    ∀ (segs : List Seg) (st en : ℚ) (texts : List String),
      texts ≠ [] ∨ segs ≠ [] →
      (chunkAux wsec st en texts segs).head?.map Window.start = some (seconds st)
  | [], st, en, texts, h => by
    rcases h with h | h
    · simp [chunkAux, h, mkWindow]
    · exact absurd rfl h
  | seg :: rest, st, en, texts, _ => by
    rw [chunkAux]
    split
    · exact chunkAux_head_start wsec rest st seg.stop (texts ++ [seg.text])
        (Or.inl (by simp))
    · simp [mkWindow]

theorem lastStop_cons (s : Seg) (rest : List Seg) (en : ℚ) :
    lastStop (s :: rest) en = lastStop rest s.stop := by
  cases rest <;> simp [lastStop, List.getLast?]

theorem getLast?_cons_ne {α : Type} (a : α) {l : List α} (h : l ≠ []) :
    (a :: l).getLast? = l.getLast? := by
  cases l with
  | nil => exact absurd rfl h
  | cons b t => simp [List.getLast?_cons_cons]

theorem chunkAux_last_stop (wsec : ℚ) :
    ∀ (segs : List Seg) (st en : ℚ) (texts : List String),
      texts ≠ [] ∨ segs ≠ [] →
      (chunkAux wsec st en texts segs).getLast?.map Window.stop
        = some (seconds (lastStop segs en))
  | [], st, en, texts, h => by
    rcases h with h | h
    · simp [chunkAux, h, mkWindow, lastStop]
    · exact absurd rfl h
  | seg :: rest, st, en, texts, _ => by
    rw [chunkAux, lastStop_cons]
    split
    · exact chunkAux_last_stop wsec rest st seg.stop (texts ++ [seg.text])
        (Or.inl (by simp))
    · have hne := chunkAux_ne_nil wsec rest seg.start seg.stop [seg.text]
        (Or.inl (by simp))
      rw [getLast?_cons_ne _ hne]
      exact chunkAux_last_stop wsec rest seg.start seg.stop [seg.text]
        (Or.inl (by simp))

theorem chunkAux_chain (wsec : ℚ) :
    ∀ (segs : List Seg) (st en : ℚ) (texts : List String),
      (∀ s ∈ segs, st ≤ s.start) →
      segs.Pairwise (fun a b => a.start ≤ b.start) →
      List.Chain' (fun a b => a.start ≤ b.start) (chunkAux wsec st en texts segs)
  | [], st, en, texts, _, _ => by
    unfold chunkAux
    split <;> simp
  | seg :: rest, st, en, texts, hst, hsort => by
    rw [chunkAux]
    split
    · exact chunkAux_chain wsec rest st seg.stop (texts ++ [seg.text])
        (fun s hs => hst s (List.mem_cons_of_mem _ hs)) hsort.tail
    · rw [List.chain'_cons']
      constructor
      · intro w hw
        have hh := chunkAux_head_start wsec rest seg.start seg.stop [seg.text]
          (Or.inl (by simp))
        rw [Option.mem_def.mp hw] at hh
        have hw' : w.start = seconds seg.start := by simpa using hh
        have : (mkWindow st en texts).start = seconds st := rfl
        rw [this, hw']
        exact seconds_mono (hst seg (List.mem_cons_self _ _))
      · exact chunkAux_chain wsec rest seg.start seg.stop [seg.text]
          (fun s hs => (List.pairwise_cons.mp hsort).1 s hs) hsort.tail

theorem chunkAux_mem_nonneg (wsec : ℚ) :
    ∀ (segs : List Seg) (st en : ℚ) (texts : List String) (w : Window),
      w ∈ chunkAux wsec st en texts segs → 0 ≤ w.start ∧ 0 ≤ w.stop
  | [], st, en, texts, w, hw => by
    unfold chunkAux at hw
    split at hw
    · simp at hw
    · rw [List.mem_singleton.mp hw]
      exact ⟨seconds_nonneg st, seconds_nonneg en⟩
  | seg :: rest, st, en, texts, w, hw => by
    rw [chunkAux] at hw
    split at hw
    · exact chunkAux_mem_nonneg wsec rest _ _ _ w hw
    · rcases List.mem_cons.mp hw with h | h
      · rw [h]
        exact ⟨seconds_nonneg st, seconds_nonneg en⟩
      · exact chunkAux_mem_nonneg wsec rest _ _ _ w h

instance (ws : List Window) : Decidable (windowsDisjoint ws) := by
  unfold windowsDisjoint; infer_instance

instance (ws : List Window) (t : ℤ) : Decidable (coversPoint ws t) := by
  unfold coversPoint; infer_instance

section ConcreteEvaluation

attribute [local semireducible] Rat.add Rat.mul Rat.sub Rat.inv Rat.ofScientific

/-- C10: every window emitted by the windower has non-negative (integer)
start and end: window bounds are materialised through `seconds`, which
clamps any negative or fractional timestamp to `max(0, round(x))`. -/
theorem claim_c10_window_bounds_nonneg (segments : List Seg) (window_sec : ℚ)
    (w : Window) (hw : w ∈ chunk_windows segments window_sec) :
    0 ≤ w.start ∧ 0 ≤ w.stop := by
  cases segments with
  | nil => simp [chunk_windows] at hw
  | cons s0 rest => exact chunkAux_mem_nonneg window_sec (s0 :: rest) s0.start s0.stop [] w hw

/-- Witness for C10 at a segment with negative fractional start `-5.7` and
fractional end `3.2`: the emitted window has bounds `0` and `3`. -/
theorem claim_c10_window_bounds_nonneg_witness :
    ({ start := 0, stop := 3, text_urdu := "a", text_roman := "a",
       label := none } : Window) ∈ chunk_windows [⟨-57/10, 16/5, "a"⟩] 90 ∧
    ((0 : ℤ) ≤ 0 ∧ (0 : ℤ) ≤ 3) :=
  ⟨by decide, claim_c10_window_bounds_nonneg [⟨-57/10, 16/5, "a"⟩] 90
    { start := 0, stop := 3, text_urdu := "a", text_roman := "a", label := none }
    (by decide)⟩

/-- C9 counterexample: a single segment whose duration (100s) exceeds the
window size (90s) yields TWO windows (the seeded window is flushed with an
empty text list before the segment re-enters the loop), not a single one. -/
theorem claim_c9_counterexample :
    chunk_windows [⟨0, 100, "a"⟩] 90 =
      [{ start := 0, stop := 100, text_urdu := "", text_roman := "", label := none },
       { start := 0, stop := 100, text_urdu := "a", text_roman := "a", label := none }] ∧
    (chunk_windows [⟨0, 100, "a"⟩] 90).length ≠ 1 := by
  constructor
  · decide
  · decide

/-- C9 (amended): an empty segment list yields an empty window list; a
single segment longer than the window size yields two windows with the same
time span, the first with empty text and the second carrying the segment's
text; segments `[(0,10),(95,100)]` at window 90 give two windows since
`100 - 0 > 90`; segments `[(0,10),(50,60)]` at window 90 give one window
spanning 0 to 60. -/
theorem claim_c9_edge_cases :
    (∀ wsec : ℚ, chunk_windows [] wsec = []) ∧
    chunk_windows [⟨0, 100, "a"⟩] 90 =
      [{ start := 0, stop := 100, text_urdu := "", text_roman := "", label := none },
       { start := 0, stop := 100, text_urdu := "a", text_roman := "a", label := none }] ∧
    (chunk_windows [⟨0, 10, "a"⟩, ⟨95, 100, "b"⟩] 90).length = 2 ∧
    chunk_windows [⟨0, 10, "a"⟩, ⟨50, 60, "b"⟩] 90 =
      [{ start := 0, stop := 60, text_urdu := "a b", text_roman := "a b",
         label := none }] :=
  ⟨fun _ => rfl, by decide, by decide, by decide⟩

/-- C1 counterexample: for the sorted segments
`[(0,10),(95,100),(97,200)]` and window size 90 the produced windows are
`[0,10], [95,100], [97,200]`: the last two overlap in time (not pairwise
disjoint), and the instant 50 inside the full input span `[0,200]` is
covered by no window (the union of spans is not the full span). -/
theorem claim_c1_counterexample :
    (0 : ℚ) < 90 ∧
    List.Pairwise (fun a b => a.start ≤ b.start)
      [(⟨0, 10, "a"⟩ : Seg), ⟨95, 100, "b"⟩, ⟨97, 200, "c"⟩] ∧
    ¬ windowsDisjoint
      (chunk_windows [(⟨0, 10, "a"⟩ : Seg), ⟨95, 100, "b"⟩, ⟨97, 200, "c"⟩] 90) ∧
    (chunk_windows [(⟨0, 10, "a"⟩ : Seg), ⟨95, 100, "b"⟩, ⟨97, 200, "c"⟩] 90).head?.map
      Window.start = some 0 ∧
    (chunk_windows [(⟨0, 10, "a"⟩ : Seg), ⟨95, 100, "b"⟩, ⟨97, 200, "c"⟩] 90).getLast?.map
      Window.stop = some 200 ∧
    ¬ coversPoint
      (chunk_windows [(⟨0, 10, "a"⟩ : Seg), ⟨95, 100, "b"⟩, ⟨97, 200, "c"⟩] 90) 50 := by
  refine ⟨by decide, by decide, by decide, by decide, by decide, by decide⟩

/-- C1 (amended): for a non-empty segment list sorted by non-decreasing
start and a positive window size, the window list is non-empty (the final
open window is always flushed), is time-ordered by non-decreasing start, its
first window starts at the rounded first-segment start, and its last window
ends at the rounded last-segment end.  Pairwise disjointness and exact
coverage of the full input span do not hold in general. -/
theorem claim_c1_order_and_span (s0 : Seg) (rest : List Seg) (wsec : ℚ)
    (_hpos : 0 < wsec)
    (hsort : (s0 :: rest).Pairwise (fun a b => a.start ≤ b.start)) :
    chunk_windows (s0 :: rest) wsec ≠ [] ∧
    List.Chain' (fun a b => a.start ≤ b.start) (chunk_windows (s0 :: rest) wsec) ∧
    (chunk_windows (s0 :: rest) wsec).head?.map Window.start
      = some (seconds s0.start) ∧
    (chunk_windows (s0 :: rest) wsec).getLast?.map Window.stop
      = some (seconds (lastStop (s0 :: rest) s0.stop)) := by
  have hall : ∀ s ∈ s0 :: rest, s0.start ≤ s.start := by
    intro s hs
    rcases List.mem_cons.mp hs with h | h
    · rw [h]
    · exact (List.pairwise_cons.mp hsort).1 s h
  exact ⟨chunkAux_ne_nil wsec (s0 :: rest) s0.start s0.stop [] (Or.inr (by simp)),
    chunkAux_chain wsec (s0 :: rest) s0.start s0.stop [] hall hsort,
    chunkAux_head_start wsec (s0 :: rest) s0.start s0.stop [] (Or.inr (by simp)),
    chunkAux_last_stop wsec (s0 :: rest) s0.start s0.stop [] (Or.inr (by simp))⟩

/-- Witness for the amended C1 at the boundary example
`[(0,10),(95,100)]`, window size 90. -/
theorem claim_c1_order_and_span_witness :
    ((0 : ℚ) < 90 ∧
     List.Pairwise (fun a b => a.start ≤ b.start)
       [(⟨0, 10, "a"⟩ : Seg), ⟨95, 100, "b"⟩]) ∧
    (chunk_windows [(⟨0, 10, "a"⟩ : Seg), ⟨95, 100, "b"⟩] 90 ≠ [] ∧
     List.Chain' (fun a b => a.start ≤ b.start)
       (chunk_windows [(⟨0, 10, "a"⟩ : Seg), ⟨95, 100, "b"⟩] 90) ∧
     (chunk_windows [(⟨0, 10, "a"⟩ : Seg), ⟨95, 100, "b"⟩] 90).head?.map Window.start
       = some (seconds (0 : ℚ)) ∧
     (chunk_windows [(⟨0, 10, "a"⟩ : Seg), ⟨95, 100, "b"⟩] 90).getLast?.map Window.stop
       = some (seconds (lastStop [(⟨0, 10, "a"⟩ : Seg), ⟨95, 100, "b"⟩] (10 : ℚ)))) :=
  ⟨⟨by decide, by decide⟩,
   claim_c1_order_and_span ⟨0, 10, "a"⟩ [⟨95, 100, "b"⟩] 90 (by decide) (by decide)⟩

end ConcreteEvaluation

/-! ### C8: missing-input error in `run_analysis` -/

/-- C8: for every path that fails the existence check, `run_analysis`
returns the file-not-found error carrying the missing path verbatim, and
the result does not depend on the downstream pipeline (so no external call
is consulted). -/
theorem claim_c8_missing_file {α : Type} (pathExists : String → Bool)
    (pipeline pipeline' : String → α) (p : String)
    (h : pathExists p = false) :
    run_analysis pathExists pipeline p = .error p ∧
    run_analysis pathExists pipeline p = run_analysis pathExists pipeline' p := by
  unfold run_analysis
  rw [h]
  exact ⟨rfl, rfl⟩

/-- Witness for C8 at the always-false existence check and path
`"missing.wav"`. -/
theorem claim_c8_missing_file_witness :
    ((fun _ : String => false) "missing.wav" = false) ∧
    (run_analysis (fun _ : String => false) (fun _ : String => (0 : ℕ)) "missing.wav"
       = .error "missing.wav" ∧
     run_analysis (fun _ : String => false) (fun _ : String => (0 : ℕ)) "missing.wav"
       = run_analysis (fun _ : String => false) (fun _ : String => (1 : ℕ)) "missing.wav") :=
  ⟨rfl, claim_c8_missing_file (fun _ => false) (fun _ => 0) (fun _ => 1) "missing.wav" rfl⟩

/-! ### C6: batch-classifier fallback -/

/-- C6: whenever the response text does not directly parse to a list of
strings and its bracketed-array substring (if any) does not either, the
batch classifier labels every window of the batch `LECTURE`, returning a
list whose length is the batch size. -/
theorem claim_c6_classifier_fallback (loads : String → Option PyObj)
    (text : String) (n : ℕ)
    (hdirect : ∀ v, loads text = some v → asStrList v = none)
    (hsub : ∀ sub v, extractBracket text = some sub → loads sub = some v →
      asStrList v = none) :
    classify_batch_with_gemini loads text n = List.replicate n "LECTURE" ∧
    (classify_batch_with_gemini loads text n).length = n := by
  have he : classify_batch_with_gemini loads text n = List.replicate n "LECTURE" := by
    unfold classify_batch_with_gemini
    cases hl : loads text with
    | some v => simp [hdirect v hl]
    | none =>
      cases hb : extractBracket text with
      | none => simp [hb]
      | some sub =>
        cases hs : loads sub with
        | some v => simp [hb, hs, hsub sub v hb hs]
        | none => simp [hb, hs]
  exact ⟨he, by rw [he]; exact List.length_replicate n _⟩

/-- Witness for C6: a parser failing on all inputs and a bracket-free
response text, batch size 3. -/
theorem claim_c6_classifier_fallback_witness :
    (∀ v : PyObj, (fun _ : String => (none : Option PyObj)) "no json here" = some v →
       asStrList v = none) ∧
    (∀ (sub : String) (v : PyObj), extractBracket "no json here" = some sub →
       (fun _ : String => (none : Option PyObj)) sub = some v → asStrList v = none) ∧
    (classify_batch_with_gemini (fun _ : String => none) "no json here" 3
       = List.replicate 3 "LECTURE" ∧
     (classify_batch_with_gemini (fun _ : String => none) "no json here" 3).length = 3) := by
  refine ⟨?_, ?_, ?_⟩
  · intro v h
    exact Option.noConfusion h
  · intro sub v h
    rw [show extractBracket "no json here" = none from rfl] at h
    exact Option.noConfusion h
  · exact claim_c6_classifier_fallback (fun _ => none) "no json here" 3
      (fun _ h => Option.noConfusion h)
      (fun sub v h => by
        rw [show extractBracket "no json here" = none from rfl] at h
        exact Option.noConfusion h)

/-! ### C5: topic/summary stage error handling -/

/-- C5: the no-credential path does return the empty well-typed result, but
a response text whose brace-delimited substring fails to parse as JSON makes
the stage raise: the second `json.loads` sits outside any `try`, so the
exception escapes (modelled as `.error ()`), contradicting the never-raise
claim. -/
theorem claim_c5_topics_uncaught_parse_error :
    node_topics_and_summary false (fun _ : String => none) (fun _ => "") "anything"
      = .ok ⟨[], ("", ""), ("", "")⟩ ∧
    node_topics_and_summary true (fun _ : String => none) (fun _ => "") "\x7bnot json\x7d"
      = .error () :=
  ⟨rfl, rfl⟩

/-! ### Metrics lemmas (for C2 and C7) -/

/-- Total duration of the windows whose coerced label is `lab`. -/
def labelTotal (ws : List Window) (lab : String) : ℤ :=
  ((ws.filter (fun w => metricsLabel w == lab)).map winDur).sum

/-- Total duration of all windows. -/
def durTotal (ws : List Window) : ℤ := (ws.map winDur).sum

theorem winDur_nonneg (w : Window) : 0 ≤ winDur w := le_max_left 0 _

theorem labelTotal_nonneg (ws : List Window) (lab : String) :
    0 ≤ labelTotal ws lab :=
  List.sum_nonneg (by
    intro x hx
    rcases List.mem_map.mp hx with ⟨w, _, rfl⟩
    exact winDur_nonneg w)

theorem durTotal_nonneg (ws : List Window) : 0 ≤ durTotal ws :=
  List.sum_nonneg (by
    intro x hx
    rcases List.mem_map.mp hx with ⟨w, _, rfl⟩
    exact winDur_nonneg w)

theorem metricsLabel_cases (w : Window) :
    metricsLabel w = "LECTURE" ∨ metricsLabel w = "QNA" ∨
    metricsLabel w = "INTERACTIVE" ∨ metricsLabel w = "OFF_TOPIC" := by
  unfold metricsLabel
  split_ifs with h
  · simp only [Bool.or_eq_true, decide_eq_true_eq] at h
    tauto
  · left; rfl

theorem labelTotal_cons (w : Window) (ws : List Window) (lab : String) :
    labelTotal (w :: ws) lab
      = (if metricsLabel w = lab then winDur w else 0) + labelTotal ws lab := by
  unfold labelTotal
  rw [List.filter_cons]
  split_ifs with h1 h2 h2 <;>
    simp_all [List.sum_cons]

theorem foldl_addTot (ws : List Window) : ∀ t : Totals,
    ws.foldl addTot t =
      ⟨t.lecture + labelTotal ws "LECTURE", t.qna + labelTotal ws "QNA",
       t.interactive + labelTotal ws "INTERACTIVE",
       t.off_topic + labelTotal ws "OFF_TOPIC"⟩ := by
  induction ws with
  | nil =>
    intro t
    simp [labelTotal]
  | cons w ws ih =>
    intro t
    rw [List.foldl_cons, ih (addTot t w),
      labelTotal_cons w ws "LECTURE", labelTotal_cons w ws "QNA",
      labelTotal_cons w ws "INTERACTIVE", labelTotal_cons w ws "OFF_TOPIC"]
    rcases metricsLabel_cases w with h | h | h | h <;> simp [addTot, h] <;> omega

theorem foldl_durTotal (ws : List Window) : ∀ a : ℤ,
    ws.foldl (fun a w => a + winDur w) a = a + durTotal ws := by
  induction ws with
  | nil => intro a; simp [durTotal]
  | cons w ws ih =>
    intro a
    rw [List.foldl_cons, ih (a + winDur w)]
    unfold durTotal
    rw [List.map_cons, List.sum_cons]
    ring

theorem totals_sum (ws : List Window) :
    labelTotal ws "LECTURE" + labelTotal ws "QNA" + labelTotal ws "INTERACTIVE"
      + labelTotal ws "OFF_TOPIC" = durTotal ws := by
  induction ws with
  | nil => simp [labelTotal, durTotal]
  | cons w ws ih =>
    rw [labelTotal_cons w ws "LECTURE", labelTotal_cons w ws "QNA",
      labelTotal_cons w ws "INTERACTIVE", labelTotal_cons w ws "OFF_TOPIC"]
    unfold durTotal
    rw [List.map_cons, List.sum_cons]
    have hd : (durTotal ws) = (ws.map winDur).sum := rfl
    rcases metricsLabel_cases w with h | h | h | h <;> simp [h] <;> omega

theorem pyRound_zero : pyRound 0 = 0 := by
  have h := pyRound_intCast 0
  norm_num at h
  exact h

theorem pyRound2_zero : pyRound2 0 = 0 := by
  unfold pyRound2
  rw [show (0 : ℚ) * 100 = 0 by ring, pyRound_zero]
  norm_num

theorem pyRound2_nonneg {x : ℚ} (h0 : 0 ≤ x) : 0 ≤ pyRound2 x := by
  unfold pyRound2
  have h1 : (0 : ℤ) ≤ pyRound (x * 100) := by
    have h2 := pyRound_mono (a := 0) (b := x * 100) (by positivity)
    rwa [pyRound_zero] at h2
  positivity

theorem pyRound2_le_100 {x : ℚ} (h : x ≤ 100) : pyRound2 x ≤ 100 := by
  unfold pyRound2
  have h1 : pyRound (x * 100) ≤ 10000 := by
    have hx : x * 100 ≤ ((10000 : ℤ) : ℚ) := by push_cast; linarith
    have := pyRound_mono hx
    rwa [pyRound_intCast 10000] at this
  have h2 : ((pyRound (x * 100) : ℤ) : ℚ) ≤ 10000 := by exact_mod_cast h1
  linarith

/-- The score term of `node_metrics`, in closed form. -/
theorem score_range_aux (q i d : ℤ) (hq : 0 ≤ q + i) (h : d ≤ 0 ∨ q + i ≤ d) :
    0 ≤ pyRound2 (100 * (if 0 < d then ((q + i : ℤ) : ℚ) / (d : ℚ) else 0)) ∧
    pyRound2 (100 * (if 0 < d then ((q + i : ℤ) : ℚ) / (d : ℚ) else 0)) ≤ 100 := by
  by_cases hd : 0 < d
  · have hdq : (0 : ℚ) < (d : ℚ) := by exact_mod_cast hd
    have hle : q + i ≤ d := by
      rcases h with h | h
      · omega
      · exact h
    have hr0 : (0 : ℚ) ≤ ((q + i : ℤ) : ℚ) / (d : ℚ) := by
      apply div_nonneg _ (le_of_lt hdq)
      exact_mod_cast hq
    have hr1 : ((q + i : ℤ) : ℚ) / (d : ℚ) ≤ 1 := by
      rw [div_le_one hdq]
      exact_mod_cast hle
    rw [if_pos hd]
    exact ⟨pyRound2_nonneg (by linarith), pyRound2_le_100 (by linarith)⟩
  · rw [if_neg hd]
    norm_num [pyRound2_zero]

theorem node_metrics_duration (ws : List Window) (supplied : Option ℤ) :
    (node_metrics ws supplied).duration_sec = effDuration ws supplied := rfl

theorem node_metrics_score_eq (ws : List Window) (supplied : Option ℤ) :
    (node_metrics ws supplied).interactivity_score
      = pyRound2 (100 * (if 0 < effDuration ws supplied then
          (((ws.foldl addTot ⟨0, 0, 0, 0⟩).qna
            + (ws.foldl addTot ⟨0, 0, 0, 0⟩).interactive : ℤ) : ℚ)
            / ((effDuration ws supplied : ℤ) : ℚ)
          else 0)) := rfl

theorem effDuration_none (ws : List Window) : effDuration ws none = durTotal ws := by
  show ws.foldl (fun a w => a + winDur w) 0 = durTotal ws
  rw [foldl_durTotal]
  omega

theorem effDuration_some_zero (ws : List Window) :
    effDuration ws (some 0) = durTotal ws := by
  show (if (0 : ℤ) = 0 then ws.foldl (fun a w => a + winDur w) 0 else 0) = durTotal ws
  rw [if_pos rfl, foldl_durTotal]
  omega

theorem effDuration_some_ne (ws : List Window) (d : ℤ) (hd : d ≠ 0) :
    effDuration ws (some d) = d := by
  show (if d = 0 then ws.foldl (fun a w => a + winDur w) 0 else d) = d
  rw [if_neg hd]

/-- The behaviour C2 ascribes to `node_metrics` on arbitrary labeled
windows: per-label totals, duration fallback, and the guarded score. -/
def metricsSpec (ws : List Window) (supplied : Option ℤ) : Prop :=
  (node_metrics ws supplied).teaching_sec = labelTotal ws "LECTURE" ∧
  (node_metrics ws supplied).qna_sec = labelTotal ws "QNA" ∧
  (node_metrics ws supplied).interactive_sec = labelTotal ws "INTERACTIVE" ∧
  (node_metrics ws supplied).time_wasted_sec = labelTotal ws "OFF_TOPIC" ∧
  ((supplied = none ∨ supplied = some 0) →
    (node_metrics ws supplied).duration_sec = durTotal ws) ∧
  (∀ d : ℤ, supplied = some d → d ≠ 0 →
    (node_metrics ws supplied).duration_sec = d) ∧
  ((node_metrics ws supplied).duration_sec = 0 →
    (node_metrics ws supplied).interactivity_score = 0) ∧
  ((node_metrics ws supplied).duration_sec ≠ 0 →
    (node_metrics ws supplied).interactivity_score
      = pyRound2 (100 * ((((node_metrics ws supplied).qna_sec
          + (node_metrics ws supplied).interactive_sec : ℤ) : ℚ)
          / (((node_metrics ws supplied).duration_sec : ℤ) : ℚ))))

theorem node_metrics_teaching (ws : List Window) (supplied : Option ℤ) :
    (node_metrics ws supplied).teaching_sec = labelTotal ws "LECTURE" := by
  show (ws.foldl addTot ⟨0, 0, 0, 0⟩).lecture = labelTotal ws "LECTURE"
  rw [foldl_addTot]
  simp

theorem node_metrics_qna (ws : List Window) (supplied : Option ℤ) :
    (node_metrics ws supplied).qna_sec = labelTotal ws "QNA" := by
  show (ws.foldl addTot ⟨0, 0, 0, 0⟩).qna = labelTotal ws "QNA"
  rw [foldl_addTot]
  simp

theorem node_metrics_interactive (ws : List Window) (supplied : Option ℤ) :
    (node_metrics ws supplied).interactive_sec = labelTotal ws "INTERACTIVE" := by
  show (ws.foldl addTot ⟨0, 0, 0, 0⟩).interactive = labelTotal ws "INTERACTIVE"
  rw [foldl_addTot]
  simp

theorem node_metrics_off_topic (ws : List Window) (supplied : Option ℤ) :
    (node_metrics ws supplied).time_wasted_sec = labelTotal ws "OFF_TOPIC" := by
  show (ws.foldl addTot ⟨0, 0, 0, 0⟩).off_topic = labelTotal ws "OFF_TOPIC"
  rw [foldl_addTot]
  simp

/-- The worked metrics example of the spec: 600s `LECTURE`, 300s `QNA`,
300s `INTERACTIVE`, 100s `OFF_TOPIC`. -/
def c2Windows : List Window :=
  [ { start := 0, stop := 600, text_urdu := "", text_roman := "",
      label := some "LECTURE" },
    { start := 600, stop := 900, text_urdu := "", text_roman := "",
      label := some "QNA" },
    { start := 900, stop := 1200, text_urdu := "", text_roman := "",
      label := some "INTERACTIVE" },
    { start := 1200, stop := 1300, text_urdu := "", text_roman := "",
      label := some "OFF_TOPIC" } ]

section MetricsClaims

attribute [local semireducible] Rat.add Rat.mul Rat.sub Rat.inv Rat.ofScientific

/-- C2: `node_metrics` adds `max(0, end - start)` of each window to the
total of its (coerced) label, uses the supplied duration exactly when it is
present and non-zero (else the window sum), and scores
`round(100·(qna+interactive)/duration, 2)` with `0.0` exactly at zero
duration; the worked example yields `duration_sec = 1300` and score `46.15`,
and the empty input yields duration `0` and score `0.0` without fault.  The
supplied duration is non-negative, as the transcription adapter produces it
through `seconds`. -/
theorem claim_c2_metrics (ws : List Window) (supplied : Option ℤ)
    (hnn : ∀ d : ℤ, supplied = some d → 0 ≤ d) :
    metricsSpec ws supplied ∧
    node_metrics c2Windows none =
      { duration_sec := 1300, teaching_sec := 600, qna_sec := 300,
        interactive_sec := 300, time_wasted_sec := 100,
        interactivity_score := 46.15 } ∧
    node_metrics [] none =
      { duration_sec := 0, teaching_sec := 0, qna_sec := 0,
        interactive_sec := 0, time_wasted_sec := 0,
        interactivity_score := 0 } := by
  refine ⟨⟨node_metrics_teaching ws supplied, node_metrics_qna ws supplied,
    node_metrics_interactive ws supplied, node_metrics_off_topic ws supplied,
    ?_, ?_, ?_, ?_⟩, by decide, by decide⟩
  · rintro (rfl | rfl)
    · rw [node_metrics_duration, effDuration_none]
    · rw [node_metrics_duration, effDuration_some_zero]
  · rintro d rfl hd
    rw [node_metrics_duration, effDuration_some_ne ws d hd]
  · intro h0
    have h0' : effDuration ws supplied = 0 := by
      rw [← node_metrics_duration]; exact h0
    rw [node_metrics_score_eq, h0']
    norm_num [pyRound2_zero]
  · intro hne
    have hne' : effDuration ws supplied ≠ 0 := by
      rw [← node_metrics_duration]; exact hne
    have hd0 : 0 ≤ effDuration ws supplied := by
      cases hsup : supplied with
      | none => rw [effDuration_none]; exact durTotal_nonneg ws
      | some d =>
        by_cases hdz : d = 0
        · subst hdz; rw [effDuration_some_zero]; exact durTotal_nonneg ws
        · rw [effDuration_some_ne ws d hdz]; exact hnn d hsup
    have hpos : 0 < effDuration ws supplied := lt_of_le_of_ne hd0 (Ne.symm hne')
    rw [node_metrics_score_eq, if_pos hpos]
    rfl

/-- Witness for C2 at the empty window list and supplied duration 5. -/
theorem claim_c2_metrics_witness :
    (∀ d : ℤ, (some (5 : ℤ) : Option ℤ) = some d → 0 ≤ d) ∧
    (metricsSpec [] (some 5) ∧
     node_metrics c2Windows none =
       { duration_sec := 1300, teaching_sec := 600, qna_sec := 300,
         interactive_sec := 300, time_wasted_sec := 100,
         interactivity_score := 46.15 } ∧
     node_metrics [] none =
       { duration_sec := 0, teaching_sec := 0, qna_sec := 0,
         interactive_sec := 0, time_wasted_sec := 0,
         interactivity_score := 0 }) :=
  ⟨fun d h => by injection h with h2; omega,
   claim_c2_metrics [] (some 5) (fun d h => by injection h with h2; omega)⟩

/-- C7 counterexample: one 100-second `QNA` window with an externally
supplied duration of 10 seconds gives `interactivity_score = 1000`, outside
`[0, 100]`. -/
theorem claim_c7_counterexample :
    ¬ ((node_metrics
        [{ start := 0, stop := 100, text_urdu := "", text_roman := "",
           label := some "QNA" }] (some 10)).interactivity_score ≤ 100) := by
  decide

/-- C7 (amended): the interactivity score lies in `[0, 100]` whenever no
external duration is supplied, or the supplied duration is non-positive
(then the guard yields score 0), or the supplied duration is at least
`qna_sec + interactive_sec`.  With a positive supplied duration smaller
than `qna_sec + interactive_sec` the score exceeds 100. -/
theorem claim_c7_score_range (ws : List Window) (supplied : Option ℤ)
    (h : supplied = none ∨ ∃ d : ℤ, supplied = some d ∧
      (d ≤ 0 ∨ (node_metrics ws supplied).qna_sec
        + (node_metrics ws supplied).interactive_sec ≤ d)) :
    0 ≤ (node_metrics ws supplied).interactivity_score ∧
    (node_metrics ws supplied).interactivity_score ≤ 100 := by
  have hq : 0 ≤ (ws.foldl addTot ⟨0, 0, 0, 0⟩).qna
      + (ws.foldl addTot ⟨0, 0, 0, 0⟩).interactive := by
    rw [foldl_addTot]
    dsimp only
    have h1 := labelTotal_nonneg ws "QNA"
    have h2 := labelTotal_nonneg ws "INTERACTIVE"
    omega
  have hfree : (ws.foldl addTot ⟨0, 0, 0, 0⟩).qna
      + (ws.foldl addTot ⟨0, 0, 0, 0⟩).interactive ≤ durTotal ws := by
    rw [foldl_addTot]
    dsimp only
    have h1 := labelTotal_nonneg ws "LECTURE"
    have h2 := labelTotal_nonneg ws "OFF_TOPIC"
    have h3 := totals_sum ws
    omega
  have hcond : effDuration ws supplied ≤ 0 ∨
      (ws.foldl addTot ⟨0, 0, 0, 0⟩).qna
        + (ws.foldl addTot ⟨0, 0, 0, 0⟩).interactive
        ≤ effDuration ws supplied := by
    rcases h with rfl | ⟨d, rfl, hd⟩
    · right
      rw [effDuration_none]
      exact hfree
    · by_cases hdz : d = 0
      · subst hdz
        right
        rw [effDuration_some_zero]
        exact hfree
      · rw [effDuration_some_ne ws d hdz]
        rcases hd with hle | hqi
        · exact Or.inl hle
        · right
          have hq' : (node_metrics ws (some d)).qna_sec
              + (node_metrics ws (some d)).interactive_sec
              = (ws.foldl addTot ⟨0, 0, 0, 0⟩).qna
                + (ws.foldl addTot ⟨0, 0, 0, 0⟩).interactive := rfl
          rw [hq'] at hqi
          exact hqi
  rw [node_metrics_score_eq]
  exact score_range_aux _ _ _ hq hcond

/-- Witness for the amended C7 at the empty window list with no supplied
duration. -/
theorem claim_c7_score_range_witness :
    ((none : Option ℤ) = none ∨ ∃ d : ℤ, (none : Option ℤ) = some d ∧
      (d ≤ 0 ∨ (node_metrics [] none).qna_sec
        + (node_metrics [] none).interactive_sec ≤ d)) ∧
    (0 ≤ (node_metrics [] none).interactivity_score ∧
     (node_metrics [] none).interactivity_score ≤ 100) :=
  ⟨Or.inl rfl, claim_c7_score_range [] none (Or.inl rfl)⟩

end MetricsClaims

/-! ### Classifier-stage lemmas (for C3) -/

/-- Forget a window's label (used to compare windows across the
classification stage). -/
def unlabel (w : Window) : Window := { w with label := none }

theorem unlabel_eq_self {w : Window} (h : w.label = none) : unlabel w = w := by
  cases w
  simp only [unlabel]
  simp_all

theorem map_unlabel_zipWith :
    ∀ (batch : List Window) (labels : List String),
      batch.length ≤ labels.length → (∀ w ∈ batch, w.label = none) →
      (List.zipWith setLabel batch labels).map unlabel = batch
  | [], _, _, _ => rfl
  | b :: bs, [], hlen, _ => by simp at hlen
  | b :: bs, l :: ls, hlen, hnone => by
    rw [List.zipWith_cons_cons, List.map_cons]
    rw [map_unlabel_zipWith bs ls (by simpa using hlen)
      (fun w hw => hnone w (List.mem_cons_of_mem _ hw))]
    rw [show unlabel (setLabel b l) = unlabel b from rfl,
      unlabel_eq_self (hnone b (List.mem_cons_self _ _))]

theorem label_of_mem_zipWith :
    ∀ (batch : List Window) (labels : List String) (w : Window),
      w ∈ List.zipWith setLabel batch labels →
      ∃ s : String, w.label = some (stripUpper s)
  | [], _, w, hw => by simp at hw
  | _ :: _, [], w, hw => by simp at hw
  | b :: bs, l :: ls, w, hw => by
    rw [List.zipWith_cons_cons] at hw
    rcases List.mem_cons.mp hw with h | h
    · exact ⟨l, by rw [h]; rfl⟩
    · exact label_of_mem_zipWith bs ls w h

theorem classifyGo_spec (loads : String → Option PyObj) (resp : ℕ → String)
    (hlen : ∀ k n, n ≤ (classify_batch_with_gemini loads (resp k) n).length) :
    ∀ (fuel : ℕ) (ws : List Window) (k : ℕ), ws.length ≤ fuel →
      (∀ w ∈ ws, w.label = none) →
      (classifyGo loads resp fuel k ws).map unlabel = ws ∧
      (∀ w ∈ classifyGo loads resp fuel k ws,
        ∃ s : String, w.label = some (stripUpper s))
  | 0, [], k, _, _ => ⟨rfl, by intro w hw; simp [classifyGo] at hw⟩
  | 0, w :: rest, k, hf, _ => by simp at hf
  | fuel + 1, [], k, _, _ => ⟨rfl, by intro w hw; simp [classifyGo] at hw⟩
  | fuel + 1, w :: rest, k, hf, hnone => by
    have hbatch : ∀ x ∈ w :: rest.take 7, x.label = none := by
      intro x hx
      rcases List.mem_cons.mp hx with h | h
      · exact h ▸ hnone w (List.mem_cons_self _ _)
      · exact hnone x (List.mem_cons_of_mem _ (List.take_subset 7 rest h))
    have hdrop : ∀ x ∈ rest.drop 7, x.label = none :=
      fun x hx => hnone x (List.mem_cons_of_mem _ (List.drop_subset 7 rest hx))
    have hdlen : (rest.drop 7).length ≤ fuel := by
      have h1 : (rest.drop 7).length ≤ rest.length := by
        rw [List.length_drop]; omega
      have h2 : rest.length ≤ fuel := by simpa using hf
      omega
    have ih := classifyGo_spec loads resp hlen fuel (rest.drop 7) (k + 1) hdlen hdrop
    constructor
    · rw [show classifyGo loads resp (fuel + 1) k (w :: rest)
          = List.zipWith setLabel (w :: rest.take 7)
              (classify_batch_with_gemini loads (resp k) (w :: rest.take 7).length)
            ++ classifyGo loads resp fuel (k + 1) (rest.drop 7) from rfl]
      rw [List.map_append,
        map_unlabel_zipWith (w :: rest.take 7) _ (hlen k _) hbatch, ih.1]
      rw [show w :: rest.take 7 ++ rest.drop 7 = w :: (rest.take 7 ++ rest.drop 7)
          from rfl, List.take_append_drop]
    · intro x hx
      rw [show classifyGo loads resp (fuel + 1) k (w :: rest)
          = List.zipWith setLabel (w :: rest.take 7)
              (classify_batch_with_gemini loads (resp k) (w :: rest.take 7).length)
            ++ classifyGo loads resp fuel (k + 1) (rest.drop 7) from rfl] at hx
      rcases List.mem_append.mp hx with h | h
      · exact label_of_mem_zipWith _ _ x h
      · exact ih.2 x h

/-- The single unlabeled window used in the C3 counterexample and witness. -/
def c3Window : Window :=
  { start := 0, stop := 10, text_urdu := "x", text_roman := "x", label := none }

/-- C3 counterexample: with one window, a service response `[]` (a valid
JSON list of strings of the wrong length) makes `node_classify` drop the
window entirely, and a response `["banana"]` leaves the out-of-set label
`BANANA` on the window — no coercion to `LECTURE` happens at this stage. -/
theorem claim_c3_counterexample :
    node_classify (fun _ : String => some (.plist [])) (fun _ => "")
      [c3Window] = [] ∧
    (node_classify (fun _ : String => some (.plist [.pstr "banana"])) (fun _ => "")
      [c3Window]).map (fun w => w.label) = [some "BANANA"] ∧
    ("BANANA" ≠ "LECTURE" ∧ "BANANA" ≠ "QNA" ∧ "BANANA" ≠ "INTERACTIVE" ∧
     "BANANA" ≠ "OFF_TOPIC") :=
  ⟨rfl, rfl, by decide⟩

/-- C3 (amended): after `node_classify`, provided every batch's returned
label list has at least the batch's length (as the all-`LECTURE` fallback
always does), every window produced by the windower is still present, in
order and otherwise unchanged, and carries exactly one label, namely the
trimmed upper-cased service string; labels outside the closed set are NOT
corrected at this stage (that correction happens in `node_metrics`), and a
service list shorter than the batch drops windows. -/
theorem claim_c3_classify_labels (loads : String → Option PyObj)
    (resp : ℕ → String) (ws : List Window)
    (hlen : ∀ k n, n ≤ (classify_batch_with_gemini loads (resp k) n).length)
    (hnone : ∀ w ∈ ws, w.label = none) :
    (node_classify loads resp ws).map unlabel = ws ∧
    (node_classify loads resp ws).length = ws.length ∧
    ∀ w ∈ node_classify loads resp ws, ∃ s : String, w.label = some (stripUpper s) := by
  have h := classifyGo_spec loads resp hlen ws.length ws 0 le_rfl hnone
  refine ⟨h.1, ?_, h.2⟩
  have := congrArg List.length h.1
  simpa using this

/-- Witness for the amended C3: a parser failing on every input (so every
batch takes the all-`LECTURE` fallback of the right length) and one
unlabeled window. -/
theorem claim_c3_classify_labels_witness :
    (∀ k n : ℕ, n ≤ (classify_batch_with_gemini (fun _ : String => none)
       ((fun _ => "") k) n).length) ∧
    (∀ w ∈ [c3Window], w.label = none) ∧
    ((node_classify (fun _ : String => none) (fun _ => "")
        [c3Window]).map unlabel
      = [c3Window] ∧
     (node_classify (fun _ : String => none) (fun _ => "")
        [c3Window]).length
      = ([c3Window] : List Window).length ∧
     ∀ w ∈ node_classify (fun _ : String => none) (fun _ => "")
        [c3Window], ∃ s : String, w.label = some (stripUpper s)) := by
  have hlen : ∀ k n : ℕ, n ≤ (classify_batch_with_gemini (fun _ : String => none)
      ((fun _ => "") k) n).length := by
    intro k n
    rw [show classify_batch_with_gemini (fun _ : String => none) "" n
        = List.replicate n "LECTURE" from rfl, List.length_replicate]
  exact ⟨hlen, by decide,
    claim_c3_classify_labels (fun _ => none) (fun _ => "") _ hlen (by decide)⟩

/-! ### String-rewriting lemmas (for C4) -/

theorem isPre_iff_append :
    ∀ pat s : List Char, isPre pat s = true ↔ ∃ t, s = pat ++ t
  | [], s => by simp [isPre]
  | a :: pat, [] => by
    simp only [isPre, Bool.false_eq_true, false_iff]
    rintro ⟨t, ht⟩
    exact List.noConfusion ht
  | a :: pat, b :: s => by
    simp only [isPre, Bool.and_eq_true, decide_eq_true_eq]
    rw [isPre_iff_append pat s]
    constructor
    · rintro ⟨rfl, t, rfl⟩
      exact ⟨t, rfl⟩
    · rintro ⟨t, ht⟩
      injection ht with h1 h2
      exact ⟨h1.symm, t, h2⟩

theorem isPre_length_le {pat s : List Char} (h : isPre pat s = true) :
    pat.length ≤ s.length := by
  rcases (isPre_iff_append pat s).mp h with ⟨t, rfl⟩
  simp

theorem isPre_mem {pat s : List Char} (h : isPre pat s = true) :
    ∀ c ∈ pat, c ∈ s := by
  rcases (isPre_iff_append pat s).mp h with ⟨t, rfl⟩
  intro c hc
  exact List.mem_append_left t hc

theorem isPre_eq_take {pat s : List Char} (h : isPre pat s = true) :
    pat = s.take pat.length := by
  rcases (isPre_iff_append pat s).mp h with ⟨t, rfl⟩
  rw [List.take_append_of_le_length le_rfl, List.take_length]

theorem isPre_append_right {pat u : List Char} (v : List Char)
    (h : isPre pat u = true) : isPre pat (u ++ v) = true := by
  rcases (isPre_iff_append pat u).mp h with ⟨t, rfl⟩
  exact (isPre_iff_append _ _).mpr ⟨t ++ v, by simp⟩

theorem isPre_of_append_le {pat u v : List Char}
    (h : isPre pat (u ++ v) = true) (hle : pat.length ≤ u.length) :
    isPre pat u = true := by
  have hp := isPre_eq_take h
  rw [List.take_append_of_le_length hle] at hp
  refine (isPre_iff_append pat u).mpr ⟨u.drop pat.length, ?_⟩
  conv_lhs => rw [← List.take_append_drop pat.length u]
  rw [← hp]

theorem replaceL_nil (pat repl : List Char) : replaceL [] pat repl = [] := by
  unfold replaceL
  split <;> rfl

theorem replaceFuel_congr (pat repl : List Char) :
    ∀ (f g : ℕ) (s : List Char), s.length ≤ f → s.length ≤ g →
      replaceFuel pat repl f s = replaceFuel pat repl g s
  | f, g, [], _, _ => by cases f <;> cases g <;> rfl
  | 0, g, c :: rest, hf, _ => by simp at hf
  | f + 1, 0, c :: rest, _, hg => by simp at hg
  | f + 1, g + 1, c :: rest, hf, hg => by
    have hf' : rest.length ≤ f := by
      simp only [List.length_cons] at hf
      omega
    have hg' : rest.length ≤ g := by
      simp only [List.length_cons] at hg
      omega
    have hd : (rest.drop (pat.length - 1)).length ≤ rest.length := by
      rw [List.length_drop]
      omega
    simp only [replaceFuel]
    split
    · rw [replaceFuel_congr pat repl f g (rest.drop (pat.length - 1))
        (le_trans hd hf') (le_trans hd hg')]
    · rw [replaceFuel_congr pat repl f g rest hf' hg']

theorem replaceL_eq_fuel (s pat repl : List Char) (hpat : pat ≠ []) (f : ℕ)
    (hf : s.length ≤ f) : replaceL s pat repl = replaceFuel pat repl f s := by
  have hpe : pat.isEmpty = false := by
    cases pat with
    | nil => exact absurd rfl hpat
    | cons p ps => rfl
  unfold replaceL
  rw [hpe]
  simp only [Bool.false_eq_true, if_false]
  exact replaceFuel_congr pat repl s.length f s le_rfl hf

theorem replaceL_cons (c : Char) (rest pat repl : List Char) (hpat : pat ≠ []) :
    replaceL (c :: rest) pat repl =
      if isPre pat (c :: rest) = true then
        repl ++ replaceL ((c :: rest).drop pat.length) pat repl
      else c :: replaceL rest pat repl := by
  have h1 : replaceL (c :: rest) pat repl
      = replaceFuel pat repl (rest.length + 1) (c :: rest) :=
    replaceL_eq_fuel _ _ _ hpat _ (by simp)
  have h2 : replaceFuel pat repl (rest.length + 1) (c :: rest)
      = if isPre pat (c :: rest) = true then
          repl ++ replaceFuel pat repl rest.length (rest.drop (pat.length - 1))
        else c :: replaceFuel pat repl rest.length rest := rfl
  have hdrop : rest.drop (pat.length - 1) = (c :: rest).drop pat.length := by
    rcases pat with _ | ⟨p, ps⟩
    · exact absurd rfl hpat
    · simp
  rw [h1, h2]
  split
  · rw [hdrop, ← replaceL_eq_fuel ((c :: rest).drop pat.length) pat repl hpat
      rest.length (by
        have hp1 : 1 ≤ pat.length := by
          cases pat with
          | nil => exact absurd rfl hpat
          | cons p ps => simp
        rw [List.length_drop, List.length_cons]
        omega)]
  · rw [← replaceL_eq_fuel rest pat repl hpat rest.length le_rfl]

theorem replaceL_of_hasSub_false (pat repl : List Char) (hpat : pat ≠ []) :
    ∀ s : List Char, hasSub pat s = false → replaceL s pat repl = s
  | [], _ => replaceL_nil pat repl
  | c :: rest, h => by
    have h' : isPre pat (c :: rest) = false ∧ hasSub pat rest = false := by
      have := h
      unfold hasSub at this
      exact Bool.or_eq_false_iff.mp this
    rw [replaceL_cons c rest pat repl hpat, if_neg (by rw [h'.1]; simp),
      replaceL_of_hasSub_false pat repl hpat rest h'.2]

theorem hasSub_mem {pat : List Char} :
    ∀ {s : List Char}, hasSub pat s = true → ∀ c ∈ pat, c ∈ s := by
  intro s
  induction s with
  | nil =>
    intro h c hc
    have hp : isPre pat [] = true := h
    have hlen := isPre_length_le hp
    have hpe : pat = [] := List.eq_nil_of_length_eq_zero (by simpa using hlen)
    subst hpe
    simp at hc
  | cons b t ih =>
    intro h c hc
    unfold hasSub at h
    rcases Bool.or_eq_true_iff.mp h with h1 | h1
    · exact isPre_mem h1 c hc
    · exact List.mem_cons_of_mem b (ih h1 c hc)

theorem hasSub_false_of_not_mem {pat s : List Char} {c : Char}
    (hc : c ∈ pat) (hns : c ∉ s) : hasSub pat s = false := by
  cases h : hasSub pat s with
  | false => rfl
  | true => exact absurd (hasSub_mem h c hc) hns

theorem replaceL_chars (pat repl : List Char) (hpat : pat ≠ []) :
    ∀ s : List Char, ∀ c ∈ replaceL s pat repl, c ∈ s ∨ c ∈ repl
  | [], c, hc => by rw [replaceL_nil] at hc; exact absurd hc (by simp)
  | b :: rest, c, hc => by
    rw [replaceL_cons b rest pat repl hpat] at hc
    split at hc
    · rcases List.mem_append.mp hc with h | h
      · exact Or.inr h
      · rcases replaceL_chars pat repl hpat ((b :: rest).drop pat.length) c h with
          h2 | h2
        · exact Or.inl (List.drop_subset _ _ h2)
        · exact Or.inr h2
    · rcases List.mem_cons.mp hc with h | h
      · exact Or.inl (h ▸ List.mem_cons_self b rest)
      · rcases replaceL_chars pat repl hpat rest c h with h2 | h2
        · exact Or.inl (List.mem_cons_of_mem b h2)
        · exact Or.inr h2
termination_by s => s.length
decreasing_by
  all_goals
    (have hp1 : 1 ≤ pat.length := by
      cases pat with
      | nil => exact absurd rfl hpat
      | cons p ps => simp
     simp only [List.length_drop, List.length_cons]
     omega)

theorem replaceL_ne_nil (pat repl : List Char) (hpat : pat ≠ [])
    (hrepl : repl ≠ []) :
    ∀ s : List Char, s ≠ [] → replaceL s pat repl ≠ [] := by
  intro s hs
  cases s with
  | nil => exact absurd rfl hs
  | cons c rest =>
    rw [replaceL_cons c rest pat repl hpat]
    split
    · simp [hrepl]
    · simp

/-! ### Whitespace-normalisation lemmas (for C4) -/

/-- The lists `ws` is a list of words: non-empty pieces without whitespace. -/
def WordsOK (ws : List (List Char)) : Prop :=
  ∀ w ∈ ws, w ≠ [] ∧ ∀ c ∈ w, pyIsSpace c = false

theorem splitWS1_space {c : Char} (h : pyIsSpace c = true) (l : List Char) :
    splitWS1 (c :: l) = ([], (splitWS1 l).1 :: (splitWS1 l).2) := by
  simp [splitWS1, h]

theorem splitWS1_nonspace {c : Char} (h : pyIsSpace c = false) (l : List Char) :
    splitWS1 (c :: l) = (c :: (splitWS1 l).1, (splitWS1 l).2) := by
  simp [splitWS1, h]

theorem splitWS1_append_word :
    ∀ (w l : List Char), (∀ c ∈ w, pyIsSpace c = false) →
      splitWS1 (w ++ l) = (w ++ (splitWS1 l).1, (splitWS1 l).2)
  | [], l, _ => by simp
  | c :: w, l, h => by
    have hc : pyIsSpace c = false := h c (List.mem_cons_self _ _)
    rw [List.cons_append, splitWS1_nonspace hc,
      splitWS1_append_word w l (fun x hx => h x (List.mem_cons_of_mem _ hx))]
    simp

theorem splitWS1_append_space {c : Char} (hc : pyIsSpace c = true) :
    ∀ l : List Char,
      splitWS1 (l ++ [c]) = ((splitWS1 l).1, (splitWS1 l).2 ++ [[]])
  | [] => by simp [splitWS1, hc]
  | b :: l => by
    by_cases hb : pyIsSpace b = true
    · rw [List.cons_append, splitWS1_space hb, splitWS1_space hb,
        splitWS1_append_space hc l]
      simp
    · have hb' : pyIsSpace b = false := by
        cases h : pyIsSpace b with
        | true => exact absurd h hb
        | false => rfl
      rw [List.cons_append, splitWS1_nonspace hb', splitWS1_nonspace hb',
        splitWS1_append_space hc l]

theorem splitWS1_chars :
    ∀ l : List Char,
      (∀ c ∈ (splitWS1 l).1, pyIsSpace c = false ∧ c ∈ l) ∧
      (∀ w ∈ (splitWS1 l).2, ∀ c ∈ w, pyIsSpace c = false ∧ c ∈ l)
  | [] => by simp [splitWS1]
  | b :: l => by
    have ih := splitWS1_chars l
    by_cases hb : pyIsSpace b = true
    · rw [splitWS1_space hb]
      refine ⟨by simp, ?_⟩
      intro w hw c hc
      rcases List.mem_cons.mp hw with h | h
      · have := (ih.1 c (h ▸ hc))
        exact ⟨this.1, List.mem_cons_of_mem _ this.2⟩
      · have := ih.2 w h c hc
        exact ⟨this.1, List.mem_cons_of_mem _ this.2⟩
    · have hb' : pyIsSpace b = false := by
        cases h : pyIsSpace b with
        | true => exact absurd h hb
        | false => rfl
      rw [splitWS1_nonspace hb']
      constructor
      · intro c hc
        rcases List.mem_cons.mp hc with h | h
        · exact ⟨h ▸ hb', h ▸ List.mem_cons_self _ _⟩
        · have := ih.1 c h
          exact ⟨this.1, List.mem_cons_of_mem _ this.2⟩
      · intro w hw c hc
        have := ih.2 w hw c hc
        exact ⟨this.1, List.mem_cons_of_mem _ this.2⟩

theorem splitWS_words_ok (l : List Char) :
    WordsOK ((splitWS l).filter (fun w => !w.isEmpty)) := by
  intro w hw
  have hmem := List.mem_of_mem_filter hw
  have hpred := List.of_mem_filter hw
  have hne : w ≠ [] := by
    intro h
    rw [h] at hpred
    simp at hpred
  refine ⟨hne, ?_⟩
  intro c hc
  have hchars := splitWS1_chars l
  unfold splitWS at hmem
  rcases List.mem_cons.mp hmem with h | h
  · exact (hchars.1 c (h ▸ hc)).1
  · exact (hchars.2 w h c hc).1

theorem splitWS_chars_sub (l : List Char) :
    ∀ w ∈ (splitWS l).filter (fun w => !w.isEmpty), ∀ c ∈ w, c ∈ l := by
  intro w hw c hc
  have hmem := List.mem_of_mem_filter hw
  have hchars := splitWS1_chars l
  unfold splitWS at hmem
  rcases List.mem_cons.mp hmem with h | h
  · exact (hchars.1 c (h ▸ hc)).2
  · exact (hchars.2 w h c hc).2

theorem unwordsL_chars :
    ∀ ws : List (List Char), ∀ c ∈ unwordsL ws, c = ' ' ∨ ∃ w ∈ ws, c ∈ w
  | [], c, hc => by simp [unwordsL] at hc
  | [w], c, hc => Or.inr ⟨w, by simp, hc⟩
  | w :: w' :: ws, c, hc => by
    rw [show unwordsL (w :: w' :: ws) = w ++ ' ' :: unwordsL (w' :: ws) from rfl]
      at hc
    rcases List.mem_append.mp hc with h | h
    · exact Or.inr ⟨w, List.mem_cons_self _ _, h⟩
    · rcases List.mem_cons.mp h with h2 | h2
      · exact Or.inl h2
      · rcases unwordsL_chars (w' :: ws) c h2 with h3 | ⟨x, hx, hcx⟩
        · exact Or.inl h3
        · exact Or.inr ⟨x, List.mem_cons_of_mem _ hx, hcx⟩

theorem normWSL_pad (l : List Char) :
    normWSL (' ' :: l ++ [' ']) = normWSL l := by
  unfold normWSL
  rw [show (' ' :: l ++ [' ']) = ' ' :: (l ++ [' ']) from rfl]
  have hsp : pyIsSpace ' ' = true := rfl
  have h1 : splitWS (' ' :: (l ++ [' '])) = [] :: splitWS (l ++ [' ']) := by
    unfold splitWS
    rw [splitWS1_space hsp]
  have h2 : splitWS (l ++ [' ']) = (splitWS1 l).1 :: ((splitWS1 l).2 ++ [[]]) := by
    unfold splitWS
    rw [splitWS1_append_space hsp l]
  rw [h1, h2]
  unfold splitWS
  rw [List.filter_cons, List.filter_cons]
  simp only [List.isEmpty_nil, Bool.not_true, Bool.false_eq_true, if_false]
  rw [List.filter_cons]
  split
  · congr 1
    rw [List.filter_append]
    simp
  · rw [List.filter_append]
    simp

theorem splitWS_unwords :
    ∀ ws : List (List Char), WordsOK ws →
      (splitWS (unwordsL ws)).filter (fun w => !w.isEmpty) = ws
  | [], _ => by simp [unwordsL, splitWS, splitWS1]
  | [w], hok => by
    have hw := hok w (List.mem_cons_self _ _)
    have h1 : splitWS1 w = (w, []) := by
      have h := splitWS1_append_word w [] hw.2
      rw [List.append_nil] at h
      rw [h]
      simp [splitWS1]
    show ((splitWS (unwordsL [w])).filter (fun w => !w.isEmpty)) = [w]
    rw [show unwordsL [w] = w from rfl]
    unfold splitWS
    rw [h1]
    have hne : w.isEmpty = false := by
      cases w with
      | nil => exact absurd rfl hw.1
      | cons a t => rfl
    simp [hne]
  | w :: w' :: ws, hok => by
    have hw := hok w (List.mem_cons_self _ _)
    have hok' : WordsOK (w' :: ws) :=
      fun x hx => hok x (List.mem_cons_of_mem _ hx)
    have hsp : pyIsSpace ' ' = true := rfl
    have h1 : splitWS1 (w ++ ' ' :: unwordsL (w' :: ws))
        = (w, splitWS (unwordsL (w' :: ws))) := by
      rw [splitWS1_append_word w _ hw.2, splitWS1_space hsp]
      rw [List.append_nil]
      rfl
    rw [show unwordsL (w :: w' :: ws) = w ++ ' ' :: unwordsL (w' :: ws) from rfl]
    unfold splitWS
    rw [h1]
    have hne : w.isEmpty = false := by
      cases w with
      | nil => exact absurd rfl hw.1
      | cons a t => rfl
    rw [List.filter_cons]
    simp only [hne, Bool.not_false, if_true]
    congr 1
    exact splitWS_unwords (w' :: ws) hok'

theorem normWSL_fix (ws : List (List Char)) (hok : WordsOK ws) :
    normWSL (unwordsL ws) = unwordsL ws := by
  unfold normWSL
  rw [splitWS_unwords ws hok]

/-! ### Replacement acts word by word (for C4) -/

theorem replaceL_append_space (pat repl : List Char) (hpat : pat ≠ [])
    (hsp : ' ' ∉ pat) :
    ∀ a b : List Char,
      replaceL (a ++ ' ' :: b) pat repl
        = replaceL a pat repl ++ ' ' :: replaceL b pat repl
  | [], b => by
    rw [List.nil_append, replaceL_nil, List.nil_append,
      replaceL_cons ' ' b pat repl hpat]
    have hfalse : isPre pat (' ' :: b) = false := by
      cases hi : isPre pat (' ' :: b) with
      | false => rfl
      | true =>
        rcases pat with _ | ⟨p, ps⟩
        · exact absurd rfl hpat
        · rcases (isPre_iff_append _ _).mp hi with ⟨t, ht⟩
          injection ht with h1 h2
          exact absurd (List.mem_cons.mpr (Or.inl h1)) hsp
    rw [if_neg (by rw [hfalse]; simp)]
  | c :: a, b => by
    rw [List.cons_append, replaceL_cons c (a ++ ' ' :: b) pat repl hpat,
      replaceL_cons c a pat repl hpat]
    have hshape : (c :: (a ++ ' ' :: b)) = (c :: a) ++ (' ' :: b) := rfl
    by_cases h : isPre pat (c :: (a ++ ' ' :: b)) = true
    · have hle : pat.length ≤ (c :: a).length := by
        by_contra hgt
        push_neg at hgt
        have hp := isPre_eq_take h
        rw [hshape, List.take_append_eq_append_take] at hp
        have htk : (c :: a).take pat.length = c :: a :=
          List.take_of_length_le (le_of_lt hgt)
        rw [htk] at hp
        have hpos : 0 < pat.length - (c :: a).length := by omega
        have hsp' : ' ' ∈ (' ' :: b).take (pat.length - (c :: a).length) := by
          cases hq : pat.length - (c :: a).length with
          | zero => omega
          | succ n => rw [List.take_succ_cons]; exact List.mem_cons_self _ _
        rw [hp] at hsp
        exact hsp (List.mem_append_right _ hsp')
      have hpre : isPre pat (c :: a) = true :=
        isPre_of_append_le (hshape ▸ h) hle
      rw [if_pos h, if_pos hpre]
      have hd : (c :: (a ++ ' ' :: b)).drop pat.length
          = ((c :: a).drop pat.length) ++ ' ' :: b := by
        rw [hshape]
        exact List.drop_append_of_le_length hle
      rw [hd, replaceL_append_space pat repl hpat hsp ((c :: a).drop pat.length) b,
        List.append_assoc]
    · have hpre : isPre pat (c :: a) = false := by
        cases hi : isPre pat (c :: a) with
        | false => rfl
        | true =>
          exact absurd (hshape ▸ isPre_append_right (' ' :: b) hi) h
      rw [if_neg h, if_neg (by rw [hpre]; simp),
        replaceL_append_space pat repl hpat hsp a b]
      rfl
termination_by a b => a.length
decreasing_by
  · have hp1 : 1 ≤ pat.length := by
      cases pat with
      | nil => exact absurd rfl hpat
      | cons p ps => simp
    simp only [List.length_drop, List.length_cons]
    omega
  · simp

theorem replaceL_unwords (pat repl : List Char) (hpat : pat ≠ [])
    (hsp : ' ' ∉ pat) :
    ∀ ws : List (List Char),
      replaceL (unwordsL ws) pat repl
        = unwordsL (ws.map (fun w => replaceL w pat repl))
  | [] => by
    rw [show unwordsL ([] : List (List Char)) = [] from rfl, replaceL_nil]
    rfl
  | [w] => rfl
  | w :: w' :: ws => by
    rw [show unwordsL (w :: w' :: ws) = w ++ ' ' :: unwordsL (w' :: ws) from rfl,
      replaceL_append_space pat repl hpat hsp w (unwordsL (w' :: ws)),
      replaceL_unwords pat repl hpat hsp (w' :: ws)]
    rfl

theorem wordsOK_map_replace (pat repl : List Char) (hpat : pat ≠ [])
    (hrepl : repl ≠ []) (hrsp : ∀ c ∈ repl, pyIsSpace c = false)
    (ws : List (List Char)) (hok : WordsOK ws) :
    WordsOK (ws.map (fun w => replaceL w pat repl)) := by
  intro w hw
  rcases List.mem_map.mp hw with ⟨x, hx, rfl⟩
  have hxok := hok x hx
  refine ⟨replaceL_ne_nil pat repl hpat hrepl x hxok.1, ?_⟩
  intro c hc
  rcases replaceL_chars pat repl hpat x c hc with h | h
  · exact hxok.2 c h
  · exact hrsp c h

/-! ### Character-map and phrase-pass lemmas (for C4) -/

theorem lookupC_mem : ∀ (m : List (Char × String)) (c : Char) (v : String),
    lookupC c m = some v → (c, v) ∈ m
  | [], c, v, h => by simp [lookupC] at h
  | p :: t, c, v, h => by
    unfold lookupC at h
    split at h
    · rename_i heq
      injection h with h2
      subst h2
      rw [← heq]
      exact List.mem_cons_self _ _
    · exact List.mem_cons_of_mem _ (lookupC_mem t c v h)

/-- Every character occurring in a value of the romanisation table is
itself outside the table's domain. -/
theorem urduValuesUnmapped :
    ∀ p ∈ URDU_ROMAN_MAP, ∀ c ∈ p.2.data, lookupC c URDU_ROMAN_MAP = none := by
  decide

/-- The space character is not in the table's domain. -/
theorem spaceUnmapped : lookupC ' ' URDU_ROMAN_MAP = none := by decide

theorem charMapL_id : ∀ l : List Char,
    (∀ c ∈ l, lookupC c URDU_ROMAN_MAP = none) → charMapL l = l
  | [], _ => rfl
  | c :: l, h => by
    unfold charMapL
    rw [List.map_cons, List.flatten_cons]
    rw [show romanCharL c = [c] by
      unfold romanCharL
      rw [h c (List.mem_cons_self _ _)]]
    have ih := charMapL_id l (fun x hx => h x (List.mem_cons_of_mem _ hx))
    unfold charMapL at ih
    rw [ih]
    rfl

theorem charMapL_unmapped (l : List Char) :
    ∀ c' ∈ charMapL l, lookupC c' URDU_ROMAN_MAP = none := by
  intro c' hc'
  unfold charMapL at hc'
  rcases List.mem_flatten.mp hc' with ⟨piece, hp, hcp⟩
  rcases List.mem_map.mp hp with ⟨c, _, rfl⟩
  unfold romanCharL at hcp
  cases hl : lookupC c URDU_ROMAN_MAP with
  | none =>
    rw [hl] at hcp
    rw [List.mem_singleton.mp hcp]
    exact hl
  | some v =>
    rw [hl] at hcp
    exact urduValuesUnmapped (c, v) (lookupC_mem _ _ _ hl) c' hcp

theorem foldl_replace_id :
    ∀ (L : List (List Char × List Char)) (t : List Char),
      (∀ p ∈ L, p.1 ≠ [] ∧ hasSub p.1 t = false) →
      L.foldl (fun acc p => replaceL acc p.1 p.2) t = t
  | [], t, _ => rfl
  | p :: L, t, h => by
    rw [List.foldl_cons,
      replaceL_of_hasSub_false p.1 p.2 (h p (List.mem_cons_self _ _)).1 t
        (h p (List.mem_cons_self _ _)).2]
    exact foldl_replace_id L t (fun q hq => h q (List.mem_cons_of_mem _ hq))

/-- Every phrase source of `COMMON_REPL` is non-empty and contains a
character of the romanisation table's domain. -/
theorem commonReplMapped :
    ∀ p ∈ COMMON_REPL, p.1 ≠ [] ∧
      ∃ c ∈ p.1, (lookupC c URDU_ROMAN_MAP).isSome = true := by
  decide

/-! ### Shape of the transducer's output (for C4) -/

theorem normWSL_charMap_chars (t : List Char) :
    ∀ c ∈ normWSL (charMapL t),
      lookupC c URDU_ROMAN_MAP = none ∧ (pyIsSpace c = true → c = ' ') := by
  intro c hc
  unfold normWSL at hc
  rcases unwordsL_chars _ c hc with rfl | ⟨w, hw, hcw⟩
  · exact ⟨spaceUnmapped, fun _ => rfl⟩
  · have h1 := splitWS_words_ok (charMapL t) w hw
    have h2 := splitWS_chars_sub (charMapL t) w hw c hcw
    refine ⟨charMapL_unmapped _ c h2, ?_⟩
    intro hsp
    rw [h1.2 c hcw] at hsp
    exact absurd hsp (by simp)

theorem u2rL_chars (x : List Char) :
    ∀ c ∈ u2rL x,
      lookupC c URDU_ROMAN_MAP = none ∧ (pyIsSpace c = true → c = ' ') := by
  have hkh : ∀ c ∈ "kh".data,
      lookupC c URDU_ROMAN_MAP = none ∧ (pyIsSpace c = true → c = ' ') := by decide
  have hgh : ∀ c ∈ "gh".data,
      lookupC c URDU_ROMAN_MAP = none ∧ (pyIsSpace c = true → c = ' ') := by decide
  have hsh : ∀ c ∈ "sh".data,
      lookupC c URDU_ROMAN_MAP = none ∧ (pyIsSpace c = true → c = ' ') := by decide
  intro c hc
  unfold u2rL cleanup3 at hc
  rcases replaceL_chars "shh".data "sh".data (by decide) _ c hc with h1 | h1
  · rcases replaceL_chars "ghh".data "gh".data (by decide) _ c h1 with h2 | h2
    · rcases replaceL_chars "khh".data "kh".data (by decide) _ c h2 with h3 | h3
      · exact normWSL_charMap_chars _ c h3
      · exact hkh c h3
    · exact hgh c h2
  · exact hsh c h1

theorem u2rL_normal (x : List Char) :
    ∃ ws : List (List Char), WordsOK ws ∧ u2rL x = unwordsL ws := by
  have hkh : ("khh".data ≠ [] ∧ ' ' ∉ "khh".data) ∧ ("kh".data ≠ [] ∧
      ∀ c ∈ "kh".data, pyIsSpace c = false) := by decide
  have hgh : ("ghh".data ≠ [] ∧ ' ' ∉ "ghh".data) ∧ ("gh".data ≠ [] ∧
      ∀ c ∈ "gh".data, pyIsSpace c = false) := by decide
  have hsh : ("shh".data ≠ [] ∧ ' ' ∉ "shh".data) ∧ ("sh".data ≠ [] ∧
      ∀ c ∈ "sh".data, pyIsSpace c = false) := by decide
  refine ⟨List.map (fun w => replaceL w "shh".data "sh".data)
      (List.map (fun w => replaceL w "ghh".data "gh".data)
        (List.map (fun w => replaceL w "khh".data "kh".data)
          ((splitWS (charMapL (phrasePass (' ' :: x ++ [' '])))).filter
            (fun w => !w.isEmpty)))), ?_, ?_⟩
  · exact wordsOK_map_replace _ _ hsh.1.1 hsh.2.1 hsh.2.2 _
      (wordsOK_map_replace _ _ hgh.1.1 hgh.2.1 hgh.2.2 _
        (wordsOK_map_replace _ _ hkh.1.1 hkh.2.1 hkh.2.2 _
          (splitWS_words_ok _)))
  · unfold u2rL cleanup3
    rw [show normWSL (charMapL (phrasePass (' ' :: x ++ [' '])))
        = unwordsL ((splitWS (charMapL (phrasePass (' ' :: x ++ [' '])))).filter
            (fun w => !w.isEmpty)) from rfl,
      replaceL_unwords _ _ hkh.1.1 hkh.1.2,
      replaceL_unwords _ _ hgh.1.1 hgh.1.2,
      replaceL_unwords _ _ hsh.1.1 hsh.1.2]

theorem u2rL_fixed (y : List Char)
    (hchars : ∀ c ∈ y,
      lookupC c URDU_ROMAN_MAP = none ∧ (pyIsSpace c = true → c = ' '))
    (hnorm : ∃ ws : List (List Char), WordsOK ws ∧ y = unwordsL ws)
    (h3 : hasSub "khh".data y = false ∧ hasSub "ghh".data y = false ∧
      hasSub "shh".data y = false) :
    u2rL y = y := by
  unfold u2rL
  have htchars : ∀ c ∈ (' ' :: y ++ [' ']), lookupC c URDU_ROMAN_MAP = none := by
    intro c hc
    rcases List.mem_append.mp hc with h | h
    · rcases List.mem_cons.mp h with rfl | h
      · exact spaceUnmapped
      · exact (hchars c h).1
    · rw [List.mem_singleton.mp h]
      exact spaceUnmapped
  have hphrase : phrasePass (' ' :: y ++ [' ']) = ' ' :: y ++ [' '] := by
    unfold phrasePass
    apply foldl_replace_id
    intro p hp
    obtain ⟨hne, c₀, hc₀, hc₀m⟩ := commonReplMapped p hp
    refine ⟨hne, hasSub_false_of_not_mem hc₀ ?_⟩
    intro hmem
    rw [htchars c₀ hmem] at hc₀m
    simp at hc₀m
  rw [hphrase, charMapL_id _ htchars, normWSL_pad]
  obtain ⟨ws, hok, rfl⟩ := hnorm
  rw [normWSL_fix ws hok]
  unfold cleanup3
  rw [replaceL_of_hasSub_false _ _ (by decide) _ h3.1,
    replaceL_of_hasSub_false _ _ (by decide) _ h3.2.1,
    replaceL_of_hasSub_false _ _ (by decide) _ h3.2.2]

set_option maxHeartbeats 2000000 in
/-- C4 counterexample: `urdu_to_roman "khhh" = "khh"`, but applying the
transducer again collapses the surviving `khh` to `kh` — the final
duplicate-aspirate cleanup is not idempotent, so `f(f(x)) ≠ f(x)`. -/
theorem claim_c4_counterexample :
    urdu_to_roman (urdu_to_roman "khhh") ≠ urdu_to_roman "khhh" := by
  decide

/-- C4 (amended): the transducer is idempotent on every input whose first
romanisation contains no occurrence of `khh`, `ghh` or `shh`; on inputs
whose romanisation retains such a cluster (e.g. `khhh`), a second
application differs because the final cleanup replaces further
occurrences. -/
theorem claim_c4_roman_idempotent (x : String)
    (h : hasSub "khh".data (urdu_to_roman x).data = false ∧
         hasSub "ghh".data (urdu_to_roman x).data = false ∧
         hasSub "shh".data (urdu_to_roman x).data = false) :
    urdu_to_roman (urdu_to_roman x) = urdu_to_roman x := by
  unfold urdu_to_roman at h ⊢
  dsimp only at h ⊢
  have hchars := u2rL_chars x.data
  have hnorm := u2rL_normal x.data
  have hfix := u2rL_fixed (u2rL x.data) hchars hnorm h
  exact congrArg String.mk hfix

set_option maxHeartbeats 4000000 in
/-- Witness for the amended C4 at the input `"salam khan"` (its
romanisation keeps `kh` but contains no `khh`/`ghh`/`shh`). -/
theorem claim_c4_roman_idempotent_witness :
    (hasSub "khh".data (urdu_to_roman "salam khan").data = false ∧
     hasSub "ghh".data (urdu_to_roman "salam khan").data = false ∧
     hasSub "shh".data (urdu_to_roman "salam khan").data = false) ∧
    urdu_to_roman (urdu_to_roman "salam khan") = urdu_to_roman "salam khan" :=
  ⟨by decide, claim_c4_roman_idempotent "salam khan" (by decide)⟩

end EduSense
